import Mathlib

/-!
Shallow embedding of the border-detection and scoring engine of the
ffmpeg-crop-api server (`server.js` and the revision files shipped with it).

Modelling conventions.

* Diagnostic text (ffmpeg stderr) is a `List Char`; the JS regular-expression
  scans (`matchAll`) are implemented as explicit character-level scanners with
  the same left-to-right, greedy, non-overlapping semantics.  The scanners use
  a fuel argument equal to the text length, which is always sufficient because
  every step consumes at least one character.
* Subprocess invocations (ffmpeg / ffprobe) are modelled as oracles: a probe
  either fails (`Except.error`, the promise rejection of `sh`) or produces
  stderr text.  Detectors that only consume the parsed result take oracles
  that directly return `Option CropRes`.
* JS numbers: the parsed geometry values are natural numbers (the regexes only
  match digit strings); scores are exact rationals.  The literals `0.5` / `0.6`
  in the scorers are modelled as the exact rationals they denote.
-/

/-- The character of a decimal digit `n < 10`. -/
def digitChar (n : ℕ) : Char := Char.ofNat (48 + n)

/-- Numeric value of a digit character. -/
def digitVal (c : Char) : ℕ := c.toNat - 48

/-- Value of a digit string, most significant digit first (the JS unary `+`
applied to a regex group of digits). -/
def digitsToNat (l : List Char) : ℕ := l.foldl (fun a c => 10 * a + digitVal c) 0

/-- Decimal rendering of a natural number, fuel-indexed so that the recursion
is structural; `fuel = n + 1` always suffices. -/
def natDigitsF : ℕ → ℕ → List Char
  | 0, _ => []
  | fuel + 1, n => if n < 10 then [digitChar n] else natDigitsF fuel (n / 10) ++ [digitChar (n % 10)]

/-- Decimal rendering of a natural number (JS template-string interpolation). -/
def natDigits (n : ℕ) : List Char := natDigitsF (n + 1) n

/-- Match a literal pattern at the head of the text, returning the rest. -/
def matchLit : List Char → List Char → Option (List Char)
  | [], s => some s
  | _ :: _, [] => none
  | p :: ps, c :: cs => if c = p then matchLit ps cs else none

/-- Greedily take one-or-more digits (a `(\d+)` group), returning the value
and the rest of the text. -/
def parseNum (s : List Char) : Option (ℕ × List Char) :=
  let ds := s.takeWhile Char.isDigit
  if ds.isEmpty then none else some (digitsToNat ds, s.dropWhile Char.isDigit)

/-- Expect a single literal character. -/
def expectChar (c : Char) : List Char → Option (List Char)
  | [] => none
  | d :: rest => if d = c then some rest else none

/-- The literal part of the pattern `crop=(\d+):(\d+):(\d+):(\d+)`. -/
def cropKey : List Char := "crop=".data

/-- Try to match one `crop=(\d+):(\d+):(\d+):(\d+)` token at the head of the
text; on success return the four group values `(w, h, x, y)` and the text
after the match. -/
def matchCropAt (s : List Char) : Option ((ℕ × ℕ × ℕ × ℕ) × List Char) :=
  (matchLit cropKey s).bind fun s1 =>
  (parseNum s1).bind fun p1 =>
  (expectChar ':' p1.2).bind fun s2 =>
  (parseNum s2).bind fun p2 =>
  (expectChar ':' p2.2).bind fun s3 =>
  (parseNum s3).bind fun p3 =>
  (expectChar ':' p3.2).bind fun s4 =>
  (parseNum s4).map fun p4 => ((p1.1, p2.1, p3.1, p4.1), p4.2)

/-- All matches of `crop=(\d+):(\d+):(\d+):(\d+)` in the text, in order, with
`matchAll` semantics: scan left to right, and continue after the end of each
match.  Fuel-indexed; every step consumes at least one character. -/
def cropMatchesF : ℕ → List Char → List (ℕ × ℕ × ℕ × ℕ)
  | 0, _ => []
  | _ + 1, [] => []
  | fuel + 1, c :: cs =>
    match matchCropAt (c :: cs) with
    | some (t, rest) => t :: cropMatchesF fuel rest
    | none => cropMatchesF fuel cs

/-- `[...stderrTxt.matchAll(/crop=(\d+):(\d+):(\d+):(\d+)/g)]`. -/
def cropMatches (s : List Char) : List (ℕ × ℕ × ℕ × ℕ) := cropMatchesF s.length s

/-- The candidate rectangle produced by the parsers: geometry plus the
`crop=w:h:x:y` filter text handed to the re-encode step. -/
structure CropRes where
  x : ℕ
  y : ℕ
  w : ℕ
  h : ℕ
  text : List Char
deriving DecidableEq

/-- The template string `` `crop=${w}:${h}:${x}:${y}` ``. -/
def cropTextOf (w h x y : ℕ) : List Char :=
  "crop=".data ++ natDigits w ++ ':' :: natDigits h ++ ':' :: natDigits x ++ ':' :: natDigits y

/-- `parseCrop` (identical in `server.js`, part_000, part_001, part_002,
part_004): take the last `crop=W:H:X:Y` match of the stderr text, or `null`. -/
def parseCrop (stderrTxt : List Char) : Option CropRes :=
  match (cropMatches stderrTxt).getLast? with
  | none => none
  | some (w, h, x, y) => some ⟨x, y, w, h, cropTextOf w h x y⟩

/-! ## Scorers -/

/-- `top = c.y`: the top bar left above the candidate. -/
def topBar (c : CropRes) : ℚ := c.y

/-- `bottom = inH - (c.y + c.h)`. -/
def bottomBar (c : CropRes) (inH : ℕ) : ℚ := (inH : ℚ) - ((c.y : ℚ) + c.h)

/-- `left = c.x`. -/
def leftBar (c : CropRes) : ℚ := c.x

/-- `right = inW - (c.x + c.w)`. -/
def rightBar (c : CropRes) (inW : ℕ) : ℚ := (inW : ℚ) - ((c.x : ℚ) + c.w)

/-- `removed = inW*inH - c.w*c.h`, the area a candidate would crop away. -/
def removedArea (c : CropRes) (inW inH : ℕ) : ℚ := (inW : ℚ) * inH - (c.w : ℚ) * c.h

/-- `Math.max(top, bottom, left, right)`. -/
def barMax (c : CropRes) (inW inH : ℕ) : ℚ :=
  max (topBar c) (max (bottomBar c inH) (max (leftBar c) (rightBar c inW)))

/-- `scoreCrop` of part_001: sentinel `-1` for `null` or for a candidate
narrower than half the frame in either dimension; otherwise
`removed + maxBar * 200`. -/
def scoreCrop (c : Option CropRes) (inW inH : ℕ) : ℚ :=
  match c with
  | none => -1
  | some c =>
    if (c.w : ℚ) < (inW : ℚ) * 0.5 ∨ (c.h : ℚ) < (inH : ℚ) * 0.5 then -1
    else
      let removed : ℚ := (inW : ℚ) * inH - (c.w : ℚ) * c.h
      let maxBar : ℚ := max (topBar c) (max (bottomBar c inH) (max (leftBar c) (rightBar c inW)))
      removed + maxBar * 200

/-- The local `score` closure of `detectWhiteCrop` (part_001 and part_002,
identical): sentinel `-1` for `null` or for a candidate narrower than `0.6`
of the frame in either dimension; otherwise
`removed + Math.max(top,bottom)*400 + Math.max(left,right)*50`. -/
def whiteScore (c : Option CropRes) (inW inH : ℕ) : ℚ :=
  match c with
  | none => -1
  | some c =>
    if (c.w : ℚ) < (inW : ℚ) * 0.6 ∨ (c.h : ℚ) < (inH : ℚ) * 0.6 then -1
    else
      let removed : ℚ := (inW : ℚ) * inH - (c.w : ℚ) * c.h
      removed + max (topBar c) (bottomBar c inH) * 400 + max (leftBar c) (rightBar c inW) * 50

/-- For an accepted candidate the smart scorer computes exactly
`removedArea + barMax * 200`. -/
theorem scoreCrop_accepted (c : CropRes) (inW inH : ℕ)
    (hb : ¬ ((c.w : ℚ) < (inW : ℚ) * 0.5 ∨ (c.h : ℚ) < (inH : ℚ) * 0.5)) :
    scoreCrop (some c) inW inH = removedArea c inW inH + barMax c inW inH * 200 := by
  simp [scoreCrop, hb, removedArea, barMax]

/-- For an accepted candidate the white scorer computes exactly
`removedArea + max top bottom * 400 + max left right * 50`. -/
theorem whiteScore_accepted (c : CropRes) (inW inH : ℕ)
    (hb : ¬ ((c.w : ℚ) < (inW : ℚ) * 0.6 ∨ (c.h : ℚ) < (inH : ℚ) * 0.6)) :
    whiteScore (some c) inW inH
      = removedArea c inW inH + max (topBar c) (bottomBar c inH) * 400
        + max (leftBar c) (rightBar c inW) * 50 := by
  simp [whiteScore, hb, removedArea]

/-- A candidate satisfying the data-model rectangle invariant removes a
nonnegative area. -/
theorem removedArea_nonneg (c : CropRes) (W H : ℕ)
    (h1 : c.x + c.w ≤ W) (h2 : c.y + c.h ≤ H) : 0 ≤ removedArea c W H := by
  have hw : c.w ≤ W := le_trans (Nat.le_add_left _ _) h1
  have hh : c.h ≤ H := le_trans (Nat.le_add_left _ _) h2
  have hm : c.w * c.h ≤ W * H := Nat.mul_le_mul hw hh
  have hm' : (c.w : ℚ) * c.h ≤ (W : ℚ) * H := by exact_mod_cast hm
  simp only [removedArea]
  linarith

/-- The top bar is never negative (parsed coordinates are naturals). -/
theorem topBar_nonneg (c : CropRes) : 0 ≤ topBar c := by
  simp [topBar]

/-- C1: a candidate with `w < 0.5·W` or `h < 0.5·H` is scored with the
sentinel `-1` by `scoreCrop`, and the white-background scorer raises the
floor to `0.6·W` / `0.6·H`; the sentinel is strictly below the score of
every accepted candidate (one passing the band and satisfying the rectangle
invariant `x + w ≤ W`, `y + h ≤ H`). -/
theorem c1_rejection_band (W H : ℕ) (c : CropRes) (hW : 0 < W) (hH : 0 < H) :
    (((c.w : ℚ) < (W : ℚ) * 0.5 ∨ (c.h : ℚ) < (H : ℚ) * 0.5) →
        scoreCrop (some c) W H = -1)
    ∧ (((c.w : ℚ) < (W : ℚ) * 0.6 ∨ (c.h : ℚ) < (H : ℚ) * 0.6) →
        whiteScore (some c) W H = -1)
    ∧ (∀ a : CropRes, ¬ ((a.w : ℚ) < (W : ℚ) * 0.5 ∨ (a.h : ℚ) < (H : ℚ) * 0.5) →
        a.x + a.w ≤ W → a.y + a.h ≤ H → -1 < scoreCrop (some a) W H)
    ∧ (∀ a : CropRes, ¬ ((a.w : ℚ) < (W : ℚ) * 0.6 ∨ (a.h : ℚ) < (H : ℚ) * 0.6) →
        a.x + a.w ≤ W → a.y + a.h ≤ H → -1 < whiteScore (some a) W H) := by
  refine ⟨fun hband => by simp [scoreCrop, hband],
          fun hband => by simp [whiteScore, hband], ?_, ?_⟩
  · intro a hband hx hy
    rw [scoreCrop_accepted a W H hband]
    have hr := removedArea_nonneg a W H hx hy
    have hbar : topBar a ≤ barMax a W H := le_max_left _ _
    have ht := topBar_nonneg a
    linarith
  · intro a hband hx hy
    rw [whiteScore_accepted a W H hband]
    have hr := removedArea_nonneg a W H hx hy
    have ht : (0 : ℚ) ≤ max (topBar a) (bottomBar a H) :=
      le_trans (topBar_nonneg a) (le_max_left _ _)
    have hl : (0 : ℚ) ≤ max (leftBar a) (rightBar a W) := by
      refine le_trans ?_ (le_max_left _ _)
      simp [leftBar]
    linarith

/-- Witness for C1 at the concrete frame 100×100: a 40-wide candidate is
rejected by both scorers, and the full-frame candidate is accepted with a
score above the sentinel. -/
theorem c1_rejection_band_witness :
    scoreCrop (some ⟨0, 0, 40, 100, []⟩) 100 100 = -1
    ∧ whiteScore (some ⟨0, 0, 40, 100, []⟩) 100 100 = -1
    ∧ -1 < scoreCrop (some ⟨0, 0, 100, 100, []⟩) 100 100
    ∧ -1 < whiteScore (some ⟨0, 0, 100, 100, []⟩) 100 100 := by
  have h := c1_rejection_band 100 100 ⟨0, 0, 40, 100, []⟩ (by norm_num) (by norm_num)
  exact ⟨h.1 (Or.inl (by norm_num)),
         h.2.1 (Or.inl (by norm_num)),
         h.2.2.1 ⟨0, 0, 100, 100, []⟩ (by norm_num) (by norm_num) (by norm_num),
         h.2.2.2 ⟨0, 0, 100, 100, []⟩ (by norm_num) (by norm_num) (by norm_num)⟩

/-! ## The smart detector (part_001 `detectCropSmart`)

One probe is an ffmpeg run; its outcome is either a rejection of the `sh`
promise (error text) or the stderr text.  `detectOnce` catches the failure
and otherwise parses the stderr. -/

/-- part_001 `detectOnce`: run one detection pipeline, returning `null` on a
subprocess failure instead of throwing. -/
def detectOnce (r : Except (List Char) (List Char)) : Option CropRes :=
  match r with
  | Except.ok stderrTxt => parseCrop stderrTxt
  | Except.error _ => none

/-- The sensitivity-limit tiers of `detectCropSmart`. -/
def smartLimits : List ℕ := [30, 45, 60, 75]

/-- The inner loop of `detectCropSmart` over the (up to three) results of one
tier: keep the candidate of maximal `scoreCrop` seen so far. -/
def tierFold (inW inH : ℕ) (st : Option CropRes × ℚ) (cs : List (Option CropRes)) :
    Option CropRes × ℚ :=
  cs.foldl (fun acc c =>
    let s := scoreCrop c inW inH
    if s > acc.2 then (c, s) else acc) st

/-- Result of a smart run: best candidate, its score, and the tiers whose
probes were actually issued (in order). -/
structure SmartRun where
  best : Option CropRes
  bestScore : ℚ
  probed : List ℕ
deriving DecidableEq

/-- `detectCropSmart`, tier loop: per limit run the three pipelines, fold the
scored results into the running best, and break out of the limit loop as soon
as the best score is positive (`if (bestScore > 0) break`). -/
def smartLoopT (res : ℕ → List (Option CropRes)) (inW inH : ℕ) :
    List ℕ → Option CropRes × ℚ → SmartRun
  | [], st => ⟨st.1, st.2, []⟩
  | lim :: rest, st =>
    let st1 := tierFold inW inH st (res lim)
    if 0 < st1.2 then ⟨st1.1, st1.2, [lim]⟩
    else
      let r := smartLoopT res inW inH rest st1
      ⟨r.best, r.bestScore, lim :: r.probed⟩

/-- `detectCropSmart` with its probe trace; `res lim` is the list of parsed
results of the three pipelines (dark, inverted, edge) run at limit `lim`. -/
def detectCropSmartT (res : ℕ → List (Option CropRes)) (inW inH : ℕ) : SmartRun :=
  smartLoopT res inW inH smartLimits (none, -1)

/-- part_001 `detectCropSmart` (the returned best candidate, possibly null). -/
def detectCropSmart (res : ℕ → List (Option CropRes)) (inW inH : ℕ) : Option CropRes :=
  (detectCropSmartT res inW inH).best

/-- Unfolding one step of the tier fold. -/
theorem tierFold_cons (inW inH : ℕ) (st : Option CropRes × ℚ) (c : Option CropRes)
    (rest : List (Option CropRes)) :
    tierFold inW inH st (c :: rest)
      = tierFold inW inH
          (if scoreCrop c inW inH > st.2 then (c, scoreCrop c inW inH) else st) rest := rfl

/-- The running best score never decreases under `tierFold`. -/
theorem tierFold_mono (inW inH : ℕ) (st : Option CropRes × ℚ)
    (cs : List (Option CropRes)) : st.2 ≤ (tierFold inW inH st cs).2 := by
  induction cs generalizing st with
  | nil => simp [tierFold]
  | cons c rest ih =>
    rw [tierFold_cons]
    by_cases h : scoreCrop c inW inH > st.2
    · rw [if_pos h]
      exact le_trans (le_of_lt h) (ih (c, scoreCrop c inW inH))
    · rw [if_neg h]
      exact ih st

/-- If every result of the tier scores nonpositive and the incoming best is
nonpositive, the best stays nonpositive. -/
theorem tierFold_nonpos (inW inH : ℕ) (st : Option CropRes × ℚ)
    (cs : List (Option CropRes)) (hst : st.2 ≤ 0)
    (hcs : ∀ c ∈ cs, scoreCrop c inW inH ≤ 0) : (tierFold inW inH st cs).2 ≤ 0 := by
  induction cs generalizing st with
  | nil => simpa [tierFold] using hst
  | cons c rest ih =>
    rw [tierFold_cons]
    by_cases h : scoreCrop c inW inH > st.2
    · rw [if_pos h]
      exact ih (c, scoreCrop c inW inH) (hcs c (by simp)) (fun d hd => hcs d (by simp [hd]))
    · rw [if_neg h]
      exact ih st hst (fun d hd => hcs d (by simp [hd]))

/-- If some result of the tier scores positive, the best becomes positive. -/
theorem tierFold_pos (inW inH : ℕ) (st : Option CropRes × ℚ)
    (cs : List (Option CropRes)) (h : ∃ c ∈ cs, 0 < scoreCrop c inW inH) :
    0 < (tierFold inW inH st cs).2 := by
  induction cs generalizing st with
  | nil => simp at h
  | cons c rest ih =>
    rw [tierFold_cons]
    rcases h with ⟨d, hd, hpos⟩
    rcases List.mem_cons.mp hd with rfl | hdrest
    · by_cases hgt : scoreCrop d inW inH > st.2
      · rw [if_pos hgt]
        calc (0 : ℚ) < scoreCrop d inW inH := hpos
          _ ≤ _ := tierFold_mono inW inH (d, scoreCrop d inW inH) rest
      · rw [if_neg hgt]
        have hp : 0 < st.2 := lt_of_lt_of_le hpos (le_of_not_lt hgt)
        calc (0 : ℚ) < st.2 := hp
          _ ≤ _ := tierFold_mono inW inH st rest
    · by_cases hgt : scoreCrop c inW inH > st.2
      · rw [if_pos hgt]
        exact ih (c, scoreCrop c inW inH) ⟨d, hdrest, hpos⟩
      · rw [if_neg hgt]
        exact ih st ⟨d, hdrest, hpos⟩

/-- Accumulator invariant of the smart search: the running best score is at
least the sentinel, and a non-null running best scored strictly above it. -/
def SmartInv (inW inH : ℕ) (st : Option CropRes × ℚ) : Prop :=
  -1 ≤ st.2 ∧ ∀ cr : CropRes, st.1 = some cr → -1 < scoreCrop (some cr) inW inH

/-- `tierFold` preserves the accumulator invariant. -/
theorem tierFold_inv (inW inH : ℕ) (st : Option CropRes × ℚ)
    (cs : List (Option CropRes)) (h : SmartInv inW inH st) :
    SmartInv inW inH (tierFold inW inH st cs) := by
  induction cs generalizing st with
  | nil => simpa [tierFold] using h
  | cons c rest ih =>
    rw [tierFold_cons]
    by_cases hgt : scoreCrop c inW inH > st.2
    · rw [if_pos hgt]
      refine ih (c, scoreCrop c inW inH) ⟨le_trans h.1 (le_of_lt hgt), ?_⟩
      intro cr hcr
      have hlt : -1 < scoreCrop c inW inH := lt_of_le_of_lt h.1 hgt
      cases c with
      | none => simp at hcr
      | some d =>
        cases hcr
        simpa using hlt
    · rw [if_neg hgt]
      exact ih st h

/-- The candidate returned by the smart tier loop scored strictly above the
sentinel, provided the incoming accumulator satisfies the invariant. -/
theorem smartLoopT_best (res : ℕ → List (Option CropRes)) (inW inH : ℕ) :
    ∀ (lims : List ℕ) (st : Option CropRes × ℚ), SmartInv inW inH st →
      ∀ cr : CropRes, (smartLoopT res inW inH lims st).best = some cr →
        -1 < scoreCrop (some cr) inW inH := by
  intro lims
  induction lims with
  | nil => exact fun st h cr hcr => h.2 cr hcr
  | cons lim rest ih =>
    intro st h cr
    have h1 : SmartInv inW inH (tierFold inW inH st (res lim)) := tierFold_inv inW inH st _ h
    simp only [smartLoopT]
    by_cases hpos : 0 < (tierFold inW inH st (res lim)).2
    · rw [if_pos hpos]
      exact h1.2 cr
    · rw [if_neg hpos]
      exact ih (tierFold inW inH st (res lim)) h1 cr

/-- Early exit: if every tier before position `i` yielded only nonpositive
scores and tier `i` yields a positive score, exactly the tiers up to `i` are
probed. -/
theorem smartLoopT_take (res : ℕ → List (Option CropRes)) (inW inH : ℕ) :
    ∀ (lims : List ℕ) (st : Option CropRes × ℚ) (i : ℕ) (hi : i < lims.length),
      st.2 ≤ 0 →
      (∀ l ∈ lims.take i, ∀ c ∈ res l, scoreCrop c inW inH ≤ 0) →
      (∃ c ∈ res (lims.get ⟨i, hi⟩), 0 < scoreCrop c inW inH) →
      (smartLoopT res inW inH lims st).probed = lims.take (i + 1) := by
  intro lims
  induction lims with
  | nil => intro st i hi; simp at hi
  | cons lim rest ih =>
    intro st i hi hst hpre hpos
    cases i with
    | zero =>
      have hp : 0 < (tierFold inW inH st (res lim)).2 :=
        tierFold_pos inW inH st _ (by simpa using hpos)
      simp only [smartLoopT]
      rw [if_pos hp]
      simp
    | succ k =>
      have hlim : ∀ c ∈ res lim, scoreCrop c inW inH ≤ 0 :=
        hpre lim (by simp [List.take_succ_cons])
      have hnp : (tierFold inW inH st (res lim)).2 ≤ 0 :=
        tierFold_nonpos inW inH st _ hst hlim
      simp only [smartLoopT]
      rw [if_neg (not_lt.mpr hnp)]
      have hk : k < rest.length := Nat.lt_of_succ_lt_succ hi
      have hrest := ih (tierFold inW inH st (res lim)) k hk hnp
        (fun l hl c hc => hpre l (by simp [List.take_succ_cons, hl, Or.inr]) c hc)
        (by simpa using hpos)
      simp [hrest, List.take_succ_cons]

/-- If no tier yields a positive score, every tier is probed. -/
theorem smartLoopT_all (res : ℕ → List (Option CropRes)) (inW inH : ℕ) :
    ∀ (lims : List ℕ) (st : Option CropRes × ℚ),
      st.2 ≤ 0 →
      (∀ l ∈ lims, ∀ c ∈ res l, scoreCrop c inW inH ≤ 0) →
      (smartLoopT res inW inH lims st).probed = lims := by
  intro lims
  induction lims with
  | nil => intro st _ _; simp [smartLoopT]
  | cons lim rest ih =>
    intro st hst hall
    have hnp : (tierFold inW inH st (res lim)).2 ≤ 0 :=
      tierFold_nonpos inW inH st _ hst (hall lim (by simp))
    simp only [smartLoopT]
    rw [if_neg (not_lt.mpr hnp)]
    simp [ih (tierFold inW inH st (res lim)) hnp (fun l hl => hall l (by simp [hl]))]

/-! ## The white detector (part_001 / part_002 `detectWhiteCrop`)

The sweep runs every threshold×blur×limit combination, then every
blur×limit combination of the `negate` fallback, scoring each parsed result
and keeping the maximum; there is no break in either loop. -/

def whiteThresholds : List ℕ := [238, 242, 246, 250]

def whiteBlurs : List ℕ := [18, 24, 30]

def whiteLimits : List ℕ := [6, 8, 10, 14]

/-- One parameter combination of the white sweep: `some th` for a
thresholded-page pipeline, `none` for the `negate` fallback, plus the blur
radius and the cropdetect limit. -/
abbrev WhiteCombo := Option ℕ × ℕ × ℕ

/-- The parameter combinations of `detectWhiteCrop` in sweep order. -/
def whiteCombos : List WhiteCombo :=
  (whiteThresholds.flatMap fun t => whiteBlurs.flatMap fun b =>
      whiteLimits.map fun lim => ((some t, b, lim) : WhiteCombo))
    ++ (whiteBlurs.flatMap fun b => whiteLimits.map fun lim => ((none, b, lim) : WhiteCombo))

/-- The probe oracle of the white sweep: `th` abstracts `tryVF` on a
thresholded pipeline, `neg` on a `negate` pipeline (both already `null` on a
subprocess failure, thanks to the `try/catch` in `tryVF`). -/
structure WhiteOracle where
  th : ℕ → ℕ → ℕ → Option CropRes
  neg : ℕ → ℕ → Option CropRes

/-- Issue the probe of one combination. -/
def whiteProbe (o : WhiteOracle) : WhiteCombo → Option CropRes
  | (some t, b, lim) => o.th t b lim
  | (none, b, lim) => o.neg b lim

/-- `detectWhiteCrop` with its probe trace: fold over every combination,
keeping the best-scoring candidate; the second component records every
combination that was issued. -/
def detectWhiteCropT (o : WhiteOracle) (inW inH : ℕ) :
    (Option CropRes × ℚ) × List WhiteCombo :=
  whiteCombos.foldl
    (fun acc combo =>
      let c := whiteProbe o combo
      let s := whiteScore c inW inH
      (if s > acc.1.2 then (c, s) else acc.1, acc.2 ++ [combo]))
    ((none, -1), [])

/-- `detectWhiteCrop` (part_001 / part_002): the best-scoring candidate of
the full sweep, possibly null. -/
def detectWhiteCrop (o : WhiteOracle) (inW inH : ℕ) : Option CropRes :=
  (detectWhiteCropT o inW inH).1.1

/-- The white sweep always issues every parameter combination: its loops
contain no break. -/
theorem detectWhiteCropT_trace (o : WhiteOracle) (inW inH : ℕ) :
    (detectWhiteCropT o inW inH).2 = whiteCombos := by
  have key : ∀ (l : List WhiteCombo) (st : Option CropRes × ℚ) (t : List WhiteCombo),
      (l.foldl (fun acc combo =>
        let c := whiteProbe o combo
        let s := whiteScore c inW inH
        (if s > acc.1.2 then (c, s) else acc.1, acc.2 ++ [combo])) (st, t)).2 = t ++ l := by
    intro l
    induction l with
    | nil => intro st t; simp
    | cons combo rest ih =>
      intro st t
      simp only [List.foldl_cons]
      rw [ih]
      simp
  simpa [detectWhiteCropT] using key whiteCombos (none, -1) []

/-- If every issued probe yields no candidate, the white sweep returns null. -/
theorem detectWhiteCrop_all_none (o : WhiteOracle) (inW inH : ℕ)
    (h : ∀ combo ∈ whiteCombos, whiteProbe o combo = none) :
    detectWhiteCrop o inW inH = none := by
  have key : ∀ (l : List WhiteCombo) (t : List WhiteCombo),
      (∀ combo ∈ l, whiteProbe o combo = none) →
      (l.foldl (fun acc combo =>
        let c := whiteProbe o combo
        let s := whiteScore c inW inH
        (if s > acc.1.2 then (c, s) else acc.1, acc.2 ++ [combo])) ((none, -1), t)).1
        = ((none : Option CropRes), (-1 : ℚ)) := by
    intro l
    induction l with
    | nil => intro t _; simp
    | cons combo rest ih =>
      intro t hl
      simp only [List.foldl_cons]
      have hc : whiteProbe o combo = none := hl combo (by simp)
      have hs : whiteScore (whiteProbe o combo) inW inH = -1 := by
        rw [hc]; rfl
      simp only [hs]
      rw [if_neg (by norm_num)]
      exact ih (t ++ [combo]) (fun d hd => hl d (by simp [hd]))
  have := key whiteCombos [] h
  simp only [detectWhiteCrop, detectWhiteCropT]
  rw [this]

/-! ## The simple white detector of part_000

Four fixed pipelines are tried in order and the first parsed candidate wins
(`if (c) { best = c; break; }`); there is no frame-size query and no scoring
of any kind. -/

namespace P0

/-- First non-null result of a list of probe results. -/
def firstSome : List (Option CropRes) → Option CropRes
  | [] => none
  | c :: rest =>
    match c with
    | some x => some x
    | none => firstSome rest

/-- part_000 `detectWhiteCrop`: `probe i` is the parsed result of the `i`-th
of the four fixed pipelines (`null` on failure, by the `try/catch`). -/
def detectWhiteCrop (probe : ℕ → Option CropRes) : Option CropRes :=
  firstSome [probe 0, probe 1, probe 2, probe 3]

end P0

/-! ## The early revision part_004: `detectOnce` without a catch -/

namespace P4

/-- part_004 `detectOnce`: no `try/catch` — a rejection of the `sh` promise
propagates to the caller. -/
def detectOnce (r : Except (List Char) (List Char)) :
    Except (List Char) (Option CropRes) :=
  r.map parseCrop

/-- part_004 `detectCropSmart`: dark and bright passes via `Promise.all`
(a failure of either rejects the whole thing), then pick the tighter crop by
area, or whichever is non-null. -/
def detectCropSmart (rDark rBright : Except (List Char) (List Char)) :
    Except (List Char) (Option CropRes) := do
  let dark ← detectOnce rDark
  let bright ← detectOnce rBright
  match dark, bright with
  | some d, some b => pure (some (if b.w * b.h < d.w * d.h then b else d))
  | some d, none => pure (some d)
  | none, some b => pure (some b)
  | none, none => pure none

end P4

/-! ## The motion detector and the bbox metadata parser (part_002) -/

/-- Try to match one `<pat>(\d+)` token at the head of the text. -/
def matchNumAt (pat : List Char) (s : List Char) : Option (ℕ × List Char) :=
  (matchLit pat s).bind parseNum

/-- All matches of `<pat>(\d+)` in the text, with `matchAll` semantics;
fuel-indexed like `cropMatchesF`. -/
def scanNumsF (pat : List Char) : ℕ → List Char → List ℕ
  | 0, _ => []
  | _ + 1, [] => []
  | fuel + 1, c :: cs =>
    match matchNumAt pat (c :: cs) with
    | some (n, rest) => n :: scanNumsF pat fuel rest
    | none => scanNumsF pat fuel cs

/-- `[...stderrTxt.matchAll(/<pat>(\d+)/g)].map(m => +m[1])`. -/
def scanNums (pat : List Char) (s : List Char) : List ℕ := scanNumsF pat s.length s

def bboxXKey : List Char := "lavfi.bbox.x=".data
def bboxYKey : List Char := "lavfi.bbox.y=".data
def bboxWKey : List Char := "lavfi.bbox.w=".data
def bboxHKey : List Char := "lavfi.bbox.h=".data

/-- `Math.min(...l)` for a non-empty list (`0` stands in for the empty case,
which the callers below only reach when every component list is empty). -/
def listMin : List ℕ → ℕ
  | [] => 0
  | x :: xs => xs.foldl min x

/-- `Math.max(...l)` for a non-empty list. -/
def listMax : List ℕ → ℕ
  | [] => 0
  | x :: xs => xs.foldl max x

/-- part_002 `parseBboxMeta`: null if any component list is empty, else the
LAST emission of each component (`xs.at(-1)` etc.), kept when `w > 0 && h > 0`. -/
def parseBboxMeta (stderrTxt : List Char) : Option CropRes :=
  let xs := scanNums bboxXKey stderrTxt
  let ys := scanNums bboxYKey stderrTxt
  let ws := scanNums bboxWKey stderrTxt
  let hs := scanNums bboxHKey stderrTxt
  match xs.getLast?, ys.getLast?, ws.getLast?, hs.getLast? with
  | some x, some y, some w, some h =>
    if 0 < w ∧ 0 < h then some ⟨x, y, w, h, cropTextOf w h x y⟩ else none
  | _, _, _, _ => none

/-- part_002 `detectMotionCrop`, the accumulation step on the collected bbox
components: null if no `x` components were emitted, else the union bounding
box `x1 = min xs`, `y1 = min ys`, `x2 = max (x+w)`, `y2 = max (y+h)`, kept
when `w > 0 && h > 0`.  (The degenerate JS cases where the four regexes match
different numbers of times produce NaN geometry; they are outside the
per-frame emission model and excluded by the length hypotheses of the
theorems below.) -/
def motionAccum (xs ys ws hs : List ℕ) : Option CropRes :=
  if xs.isEmpty then none
  else
    let x1 := listMin xs
    let y1 := listMin ys
    let x2 := listMax (List.zipWith (fun a b => a + b) xs ws)
    let y2 := listMax (List.zipWith (fun a b => a + b) ys hs)
    let w : ℤ := (x2 : ℤ) - x1
    let h : ℤ := (y2 : ℤ) - y1
    if 0 < w ∧ 0 < h then
      some ⟨x1, y1, w.toNat, h.toNat, cropTextOf w.toNat h.toNat x1 y1⟩
    else none

/-- part_002 `detectMotionCrop` after the ffmpeg run: collect all four bbox
component lists from the stderr text and accumulate. -/
def detectMotionCrop (stderrTxt : List Char) : Option CropRes :=
  motionAccum (scanNums bboxXKey stderrTxt) (scanNums bboxYKey stderrTxt)
    (scanNums bboxWKey stderrTxt) (scanNums bboxHKey stderrTxt)

/-- Written from the words of the specification: the union bounding box over
all per-frame emissions, `x1 = min(allX)`, `y1 = min(allY)`,
`x2 = max(x_i + w_i)`, `y2 = max(y_i + h_i)`, `w = x2 - x1`, `h = y2 - y1`;
null if no components were emitted or if `w` or `h` is non-positive. -/
def unionBBoxSpec (xs ys ws hs : List ℕ) : Option (ℕ × ℕ × ℕ × ℕ) :=
  if xs.isEmpty then none
  else
    let x1 := listMin xs
    let y1 := listMin ys
    let x2 := listMax (List.zipWith (fun a b => a + b) xs ws)
    let y2 := listMax (List.zipWith (fun a b => a + b) ys hs)
    let w : ℤ := (x2 : ℤ) - x1
    let h : ℤ := (y2 : ℤ) - y1
    if 0 < w ∧ 0 < h then some (x1, y1, w.toNat, h.toNat) else none

/-! ## The white route micro-pass (part_002 `/crop-upload-white`) -/

/-- The final step of the white route of part_002: if the micro-pass found a
second crop, re-encode the intermediate with it; otherwise the intermediate
is copied to the output unchanged (`fs.copyFile(tmp1, outFile)`).  The video
and the re-encode step are abstract. -/
def microFinal {V : Type} (encodeStep : V → CropRes → V) (tmp1 : V)
    (crop2 : Option CropRes) : V :=
  match crop2 with
  | some c2 => encodeStep tmp1 c2
  | none => tmp1

/-- The even-dimension scale filter appended by the white route of part_001. -/
def evenScaleVF : List Char := "scale=trunc(iw/2)*2:trunc(ih/2)*2:flags=bicubic".data

/-- The final filter chain of the white route of part_001:
`[crop2 ? crop2.text : null, scale].filter(Boolean)`. -/
def vfFinalWhite (crop2 : Option CropRes) : List (List Char) :=
  [crop2.map (fun c => c.text), some evenScaleVF].filterMap id

/-! ## Decimal digits: rendering and parsing agree -/

theorem digitVal_digitChar (m : ℕ) (h : m < 10) : digitVal (digitChar m) = m := by
  interval_cases m <;> decide

theorem isDigit_digitChar (m : ℕ) (h : m < 10) : (digitChar m).isDigit = true := by
  interval_cases m <;> decide

theorem digitsToNat_append_singleton (l : List Char) (c : Char) :
    digitsToNat (l ++ [c]) = 10 * digitsToNat l + digitVal c := by
  simp [digitsToNat, List.foldl_append]

theorem natDigitsF_digits (fuel n : ℕ) : ∀ c ∈ natDigitsF fuel n, c.isDigit = true := by
  induction fuel generalizing n with
  | zero => simp [natDigitsF]
  | succ fuel ih =>
    intro c hc
    by_cases h : n < 10
    · simp only [natDigitsF, if_pos h, List.mem_singleton] at hc
      exact hc ▸ isDigit_digitChar n h
    · simp only [natDigitsF, if_neg h, List.mem_append, List.mem_singleton] at hc
      rcases hc with hc | hc
      · exact ih (n / 10) c hc
      · exact hc ▸ isDigit_digitChar (n % 10) (Nat.mod_lt n (by norm_num))

theorem natDigitsF_ne_nil (fuel n : ℕ) : natDigitsF (fuel + 1) n ≠ [] := by
  by_cases h : n < 10
  · simp [natDigitsF, if_pos h]
  · simp only [natDigitsF, if_neg h]
    intro hcontra
    exact absurd (List.append_eq_nil.mp hcontra).2 (by simp)

theorem natDigitsF_toNat (fuel : ℕ) : ∀ n : ℕ, n < 10 ^ fuel →
    digitsToNat (natDigitsF fuel n) = n := by
  induction fuel with
  | zero =>
    intro n hn
    interval_cases n
    simp [natDigitsF, digitsToNat]
  | succ fuel ih =>
    intro n hn
    by_cases h : n < 10
    · simp [natDigitsF, if_pos h, digitsToNat, digitVal_digitChar n h]
    · have hd : n / 10 < 10 ^ fuel := by
        rw [Nat.div_lt_iff_lt_mul (by norm_num : 0 < 10)]
        calc n < 10 ^ (fuel + 1) := hn
          _ = 10 ^ fuel * 10 := by ring
      rw [natDigitsF, if_neg h, digitsToNat_append_singleton, ih (n / 10) hd,
        digitVal_digitChar (n % 10) (Nat.mod_lt n (by norm_num))]
      exact Nat.div_add_mod n 10

theorem natDigits_digits (n : ℕ) : ∀ c ∈ natDigits n, c.isDigit = true :=
  natDigitsF_digits (n + 1) n

theorem natDigits_ne_nil (n : ℕ) : natDigits n ≠ [] := natDigitsF_ne_nil n n

theorem natDigits_toNat (n : ℕ) : digitsToNat (natDigits n) = n := by
  refine natDigitsF_toNat (n + 1) n ?_
  calc n < 10 ^ n := Nat.lt_pow_self (by norm_num) n
    _ ≤ 10 ^ (n + 1) := Nat.pow_le_pow_right (by norm_num) (Nat.le_succ n)

/-! ## takeWhile / dropWhile over a digit block -/

/-- Whether the text does not start with a digit (so a greedy digit group
ending right before it is maximal). -/
def headNotDigit (r : List Char) : Bool :=
  match r with
  | [] => true
  | c :: _ => !c.isDigit

theorem takeWhile_digits_append (g r : List Char)
    (hg : ∀ c ∈ g, c.isDigit = true) (hr : headNotDigit r = true) :
    (g ++ r).takeWhile Char.isDigit = g ∧ (g ++ r).dropWhile Char.isDigit = r := by
  induction g with
  | nil =>
    simp only [List.nil_append]
    cases r with
    | nil => simp
    | cons c t =>
      simp only [headNotDigit, Bool.not_eq_true'] at hr
      simp [List.takeWhile_cons, List.dropWhile_cons, hr]
  | cons c g1 ih =>
    have hc : c.isDigit = true := hg c (by simp)
    have hrec := ih (fun d hd => hg d (by simp [hd]))
    simp [List.takeWhile_cons, List.dropWhile_cons, hc, hrec.1, hrec.2]

theorem mem_takeWhile_digit (l : List Char) :
    ∀ c ∈ l.takeWhile Char.isDigit, c.isDigit = true := by
  induction l with
  | nil => simp
  | cons a t ih =>
    by_cases ha : a.isDigit = true
    · intro c hc
      rw [List.takeWhile_cons, if_pos ha] at hc
      rcases List.mem_cons.mp hc with rfl | hc
      · exact ha
      · exact ih c hc
    · intro c hc
      rw [List.takeWhile_cons, if_neg ha] at hc
      simp at hc

theorem head_dropWhile_digit (l : List Char) :
    headNotDigit (l.dropWhile Char.isDigit) = true := by
  induction l with
  | nil => simp [headNotDigit]
  | cons a t ih =>
    by_cases ha : a.isDigit = true
    · rw [List.dropWhile_cons, if_pos ha]
      exact ih
    · rw [List.dropWhile_cons, if_neg ha]
      simp [headNotDigit, ha]

/-! ## parseNum, matchLit, expectChar -/

theorem parseNum_token (g r : List Char) (hg : ∀ c ∈ g, c.isDigit = true)
    (hne : g ≠ []) (hr : headNotDigit r = true) :
    parseNum (g ++ r) = some (digitsToNat g, r) := by
  obtain ⟨ht, hd⟩ := takeWhile_digits_append g r hg hr
  simp [parseNum, ht, hd, List.isEmpty_iff, hne]

theorem parseNum_some (s : List Char) (n : ℕ) (r : List Char)
    (h : parseNum s = some (n, r)) :
    ∃ g : List Char, g ≠ [] ∧ (∀ c ∈ g, c.isDigit = true) ∧ s = g ++ r
      ∧ n = digitsToNat g ∧ headNotDigit r = true := by
  by_cases he : (s.takeWhile Char.isDigit).isEmpty
  · simp [parseNum, he] at h
  · simp only [parseNum, he, if_neg, Bool.false_eq_true, not_false_iff, Option.some.injEq,
      Prod.mk.injEq] at h
    refine ⟨s.takeWhile Char.isDigit, by simpa [List.isEmpty_iff] using he,
      mem_takeWhile_digit s, ?_, h.1.symm, h.2 ▸ head_dropWhile_digit s⟩
    rw [← h.2]
    exact (List.takeWhile_append_dropWhile (p := Char.isDigit) (l := s)).symm

theorem matchLit_self_append (l r : List Char) : matchLit l (l ++ r) = some r := by
  induction l with
  | nil => rfl
  | cons c t ih => simp [matchLit, ih]

theorem matchLit_some (l : List Char) : ∀ (s r : List Char),
    matchLit l s = some r → s = l ++ r := by
  induction l with
  | nil =>
    intro s r h
    simp only [matchLit, Option.some.injEq] at h
    simp [h]
  | cons c t ih =>
    intro s r h
    cases s with
    | nil => simp [matchLit] at h
    | cons d s1 =>
      by_cases hd : d = c
      · rw [matchLit, if_pos hd] at h
        simp [hd, ih s1 r h]
      · rw [matchLit, if_neg hd] at h
        exact absurd h (by simp)

theorem expectChar_some (c : Char) : ∀ (s r : List Char),
    expectChar c s = some r → s = c :: r := by
  intro s r h
  cases s with
  | nil => simp [expectChar] at h
  | cons d s1 =>
    by_cases hd : d = c
    · rw [expectChar, if_pos hd] at h
      simp only [Option.some.injEq] at h
      rw [hd, h]
    · rw [expectChar, if_neg hd] at h
      exact absurd h (by simp)

/-! ## Crop tokens as substrings -/

/-- The text of one well-formed `crop=<g1>:<g2>:<g3>:<g4>` token. -/
def tokChars (g1 g2 g3 g4 : List Char) : List Char :=
  cropKey ++ g1 ++ ':' :: g2 ++ ':' :: g3 ++ ':' :: g4

/-- Everything of a token after its leading `'c'`. -/
def tokTail (g1 g2 g3 g4 : List Char) : List Char :=
  "rop=".data ++ g1 ++ ':' :: g2 ++ ':' :: g3 ++ ':' :: g4

/-- The four groups are non-empty digit strings. -/
abbrev WfGroups (g1 g2 g3 g4 : List Char) : Prop :=
  (g1 ≠ [] ∧ ∀ c ∈ g1, c.isDigit = true) ∧ (g2 ≠ [] ∧ ∀ c ∈ g2, c.isDigit = true)
    ∧ (g3 ≠ [] ∧ ∀ c ∈ g3, c.isDigit = true) ∧ (g4 ≠ [] ∧ ∀ c ∈ g4, c.isDigit = true)

/-- The text contains at least one well-formed crop token. -/
def HasTok (s : List Char) : Prop :=
  ∃ g1 g2 g3 g4 a b : List Char, WfGroups g1 g2 g3 g4 ∧ s = a ++ tokChars g1 g2 g3 g4 ++ b

/-- `(g1,g2,g3,g4)` is the last token occurrence of the text: the token
appears, its final digit group is maximal (the following text does not start
with a digit), and no further token occurs after it. -/
def LastTok (s g1 g2 g3 g4 : List Char) : Prop :=
  ∃ a b : List Char, WfGroups g1 g2 g3 g4 ∧ s = a ++ tokChars g1 g2 g3 g4 ++ b
    ∧ headNotDigit b = true ∧ ¬ HasTok b

theorem tokChars_eq_cons (g1 g2 g3 g4 : List Char) :
    tokChars g1 g2 g3 g4 = 'c' :: tokTail g1 g2 g3 g4 := rfl

theorem hasTok_cons (c : Char) (cs : List Char) (h : HasTok cs) : HasTok (c :: cs) := by
  obtain ⟨g1, g2, g3, g4, a, b, hw, hs⟩ := h
  exact ⟨g1, g2, g3, g4, c :: a, b, hw, by simp [hs]⟩

/-- Any text containing a token has length at least 12. -/
theorem hasTok_length (s : List Char) (h : HasTok s) : 12 ≤ s.length := by
  obtain ⟨g1, g2, g3, g4, a, b, hw, hs⟩ := h
  obtain ⟨⟨h1, _⟩, ⟨h2, _⟩, ⟨h3, _⟩, ⟨h4, _⟩⟩ := hw
  have l1 : 1 ≤ g1.length := List.length_pos.mpr h1
  have l2 : 1 ≤ g2.length := List.length_pos.mpr h2
  have l3 : 1 ≤ g3.length := List.length_pos.mpr h3
  have l4 : 1 ≤ g4.length := List.length_pos.mpr h4
  have hlen : s.length = a.length + ((tokChars g1 g2 g3 g4).length + b.length) := by
    simp [hs]
  have htok : 12 ≤ (tokChars g1 g2 g3 g4).length := by
    simp only [tokChars, cropKey, List.length_append, List.length_cons]
    omega
  omega

/-- Exact match of a token at the head of the text, when the rest does not
begin with a digit. -/
theorem matchCropAt_token (g1 g2 g3 g4 b : List Char) (hw : WfGroups g1 g2 g3 g4)
    (hb : headNotDigit b = true) :
    matchCropAt (tokChars g1 g2 g3 g4 ++ b)
      = some ((digitsToNat g1, digitsToNat g2, digitsToNat g3, digitsToNat g4), b) := by
  obtain ⟨⟨h1n, h1d⟩, ⟨h2n, h2d⟩, ⟨h3n, h3d⟩, ⟨h4n, h4d⟩⟩ := hw
  have e0 : tokChars g1 g2 g3 g4 ++ b
      = cropKey ++ (g1 ++ ':' :: (g2 ++ ':' :: (g3 ++ ':' :: (g4 ++ b)))) := by
    simp [tokChars]
  unfold matchCropAt
  rw [e0, matchLit_self_append, Option.some_bind,
    parseNum_token g1 (':' :: (g2 ++ ':' :: (g3 ++ ':' :: (g4 ++ b)))) h1d h1n rfl,
    Option.some_bind]
  show (expectChar ':' (':' :: (g2 ++ ':' :: (g3 ++ ':' :: (g4 ++ b))))).bind _ = _
  rw [show expectChar ':' (':' :: (g2 ++ ':' :: (g3 ++ ':' :: (g4 ++ b))))
      = some (g2 ++ ':' :: (g3 ++ ':' :: (g4 ++ b))) from by simp [expectChar],
    Option.some_bind,
    parseNum_token g2 (':' :: (g3 ++ ':' :: (g4 ++ b))) h2d h2n rfl, Option.some_bind]
  show (expectChar ':' (':' :: (g3 ++ ':' :: (g4 ++ b)))).bind _ = _
  rw [show expectChar ':' (':' :: (g3 ++ ':' :: (g4 ++ b)))
      = some (g3 ++ ':' :: (g4 ++ b)) from by simp [expectChar],
    Option.some_bind,
    parseNum_token g3 (':' :: (g4 ++ b)) h3d h3n rfl, Option.some_bind]
  show (expectChar ':' (':' :: (g4 ++ b))).bind _ = _
  rw [show expectChar ':' (':' :: (g4 ++ b)) = some (g4 ++ b) from by simp [expectChar],
    Option.some_bind, parseNum_token g4 b h4d h4n hb]
  rfl

/-- Soundness of the single-token matcher: a successful match decomposes the
text into a well-formed token followed by the rest. -/
theorem matchCropAt_some_decomp (s : List Char) (t : ℕ × ℕ × ℕ × ℕ) (rest : List Char)
    (h : matchCropAt s = some (t, rest)) :
    ∃ g1 g2 g3 g4 : List Char, WfGroups g1 g2 g3 g4
      ∧ s = tokChars g1 g2 g3 g4 ++ rest
      ∧ t = (digitsToNat g1, digitsToNat g2, digitsToNat g3, digitsToNat g4) := by
  unfold matchCropAt at h
  cases hm : matchLit cropKey s with
  | none => rw [hm] at h; simp at h
  | some s1 =>
  rw [hm, Option.some_bind] at h
  cases hp1 : parseNum s1 with
  | none => rw [hp1] at h; simp at h
  | some p1 =>
  obtain ⟨v1, r1⟩ := p1
  rw [hp1, Option.some_bind] at h
  cases he1 : expectChar ':' r1 with
  | none => rw [he1] at h; simp at h
  | some s2 =>
  rw [he1, Option.some_bind] at h
  cases hp2 : parseNum s2 with
  | none => rw [hp2] at h; simp at h
  | some p2 =>
  obtain ⟨v2, r2⟩ := p2
  rw [hp2, Option.some_bind] at h
  cases he2 : expectChar ':' r2 with
  | none => rw [he2] at h; simp at h
  | some s3 =>
  rw [he2, Option.some_bind] at h
  cases hp3 : parseNum s3 with
  | none => rw [hp3] at h; simp at h
  | some p3 =>
  obtain ⟨v3, r3⟩ := p3
  rw [hp3, Option.some_bind] at h
  cases he3 : expectChar ':' r3 with
  | none => rw [he3] at h; simp at h
  | some s4 =>
  rw [he3, Option.some_bind] at h
  cases hp4 : parseNum s4 with
  | none => rw [hp4] at h; simp at h
  | some p4 =>
  obtain ⟨v4, r4⟩ := p4
  rw [hp4] at h
  have h2 : (some (((v1, v2, v3, v4), r4) : (ℕ × ℕ × ℕ × ℕ) × List Char))
      = some (t, rest) := h
  injection h2 with h3
  injection h3 with hteq hrest
  obtain ⟨g1, hg1ne, hg1d, hs1, hv1, _⟩ := parseNum_some s1 v1 r1 hp1
  obtain ⟨g2, hg2ne, hg2d, hs2, hv2, _⟩ := parseNum_some s2 v2 r2 hp2
  obtain ⟨g3, hg3ne, hg3d, hs3, hv3, _⟩ := parseNum_some s3 v3 r3 hp3
  obtain ⟨g4, hg4ne, hg4d, hs4, hv4, _⟩ := parseNum_some s4 v4 r4 hp4
  have hkey : s = cropKey ++ s1 := matchLit_some cropKey s s1 hm
  have hr1 : r1 = ':' :: s2 := expectChar_some ':' r1 s2 he1
  have hr2 : r2 = ':' :: s3 := expectChar_some ':' r2 s3 he2
  have hr3 : r3 = ':' :: s4 := expectChar_some ':' r3 s4 he3
  refine ⟨g1, g2, g3, g4, ⟨⟨hg1ne, hg1d⟩, ⟨hg2ne, hg2d⟩, ⟨hg3ne, hg3d⟩, ⟨hg4ne, hg4d⟩⟩, ?_, ?_⟩
  · rw [hkey, hs1, hr1, hs2, hr2, hs3, hr3, hs4, ← hrest]
    simp [tokChars]
  · rw [← hteq, hv1, hv2, hv3, hv4]

/-- Splitting a pair of append decompositions of the same list. -/
theorem append_eq_append_split {α : Type} : ∀ (u v a w : List α),
    u ++ v = a ++ w → u.length ≤ a.length → ∃ m, a = u ++ m ∧ v = m ++ w := by
  intro u
  induction u with
  | nil =>
    intro v a w h _
    exact ⟨a, rfl, by simpa using h⟩
  | cons x u1 ih =>
    intro v a w h hlen
    cases a with
    | nil => simp at hlen
    | cons y a1 =>
      simp only [List.cons_append, List.cons.injEq] at h
      obtain ⟨m, hm1, hm2⟩ := ih v a1 w h.2 (by simpa using hlen)
      exact ⟨m, by simp [hm1, h.1], hm2⟩

theorem digit_ne_c (c : Char) (h : c.isDigit = true) : c ≠ 'c' := by
  intro hc
  rw [hc] at h
  exact absurd h (by decide)

/-- No character after the leading `'c'` of a token is a `'c'`: a token
match never hides the start of a later token inside its span. -/
theorem tokTail_no_c (g1 g2 g3 g4 : List Char) (hw : WfGroups g1 g2 g3 g4) :
    ∀ c ∈ tokTail g1 g2 g3 g4, c ≠ 'c' := by
  obtain ⟨⟨_, h1d⟩, ⟨_, h2d⟩, ⟨_, h3d⟩, ⟨_, h4d⟩⟩ := hw
  intro c hc hceq
  subst hceq
  have hd : ∀ g : List Char, (∀ d ∈ g, d.isDigit = true) → ('c' : Char) ∈ g → False :=
    fun g hg hmem => absurd (hg _ hmem) (by decide)
  have m1 := hd g1 h1d
  have m2 := hd g2 h2d
  have m3 := hd g3 h3d
  have m4 := hd g4 h4d
  have e1 : ¬ (('c' : Char) = 'r') := by decide
  have e2 : ¬ (('c' : Char) = 'o') := by decide
  have e3 : ¬ (('c' : Char) = 'p') := by decide
  have e4 : ¬ (('c' : Char) = '=') := by decide
  have e5 : ¬ (('c' : Char) = ':') := by decide
  revert hc
  simp only [tokTail, List.mem_append, List.mem_cons, List.not_mem_nil]
  intro hc
  tauto

/-- A non-trivial suffix of a token does not start with `'c'`. -/
theorem tokChars_split_no_c (g1 g2 g3 g4 : List Char) (hw : WfGroups g1 g2 g3 g4)
    (a m : List Char) (hsplit : tokChars g1 g2 g3 g4 = a ++ m) (ha : a ≠ []) :
    m.head? ≠ some 'c' := by
  intro hhead
  cases m with
  | nil => simp at hhead
  | cons m0 m1 =>
    simp only [List.head?_cons, Option.some.injEq] at hhead
    cases a with
    | nil => exact ha rfl
    | cons a0 a1 =>
      rw [tokChars_eq_cons] at hsplit
      simp only [List.cons_append, List.cons.injEq] at hsplit
      have : m0 ∈ tokTail g1 g2 g3 g4 := by
        rw [hsplit.2]
        simp
      exact tokTail_no_c g1 g2 g3 g4 hw m0 this hhead

/-! ## The scanner: soundness and the last-match theorem -/

theorem cropMatchesF_succ_cons (fuel : ℕ) (c : Char) (cs : List Char) :
    cropMatchesF (fuel + 1) (c :: cs)
      = match matchCropAt (c :: cs) with
        | some (t, rest) => t :: cropMatchesF fuel rest
        | none => cropMatchesF fuel cs := rfl

theorem getLast?_cons_of_ne_nil {α : Type} (x : α) (l : List α) (h : l ≠ []) :
    (x :: l).getLast? = l.getLast? := by
  cases l with
  | nil => exact absurd rfl h
  | cons y t => exact List.getLast?_cons_cons

/-- Soundness: if the scanner finds any match, the text contains a
well-formed token. -/
theorem cropMatchesF_sound : ∀ (fuel : ℕ) (s : List Char),
    cropMatchesF fuel s ≠ [] → HasTok s := by
  intro fuel
  induction fuel with
  | zero => intro s h; simp [cropMatchesF] at h
  | succ fuel ih =>
    intro s h
    cases s with
    | nil => simp [cropMatchesF] at h
    | cons c cs =>
      cases hm : matchCropAt (c :: cs) with
      | some tr =>
        obtain ⟨t, rest⟩ := tr
        obtain ⟨g1, g2, g3, g4, hw, hsq, _⟩ := matchCropAt_some_decomp (c :: cs) t rest hm
        exact ⟨g1, g2, g3, g4, [], rest, hw, by simpa using hsq⟩
      | none =>
        rw [cropMatchesF_succ_cons, hm] at h
        exact hasTok_cons c cs (ih cs h)

/-- The last match of the scanner is the last token occurrence of the text:
matches are scanned left to right, a match span cannot hide the start of a
later token (`tokChars_split_no_c`), and after the last token nothing
matches. -/
theorem cropMatchesF_lastTok : ∀ (fuel : ℕ) (s g1 g2 g3 g4 : List Char),
    s.length ≤ fuel → LastTok s g1 g2 g3 g4 →
    (cropMatchesF fuel s).getLast?
      = some (digitsToNat g1, digitsToNat g2, digitsToNat g3, digitsToNat g4) := by
  intro fuel
  induction fuel with
  | zero =>
    intro s g1 g2 g3 g4 hlen hl
    have hs0 : s = [] := List.length_eq_zero.mp (Nat.le_zero.mp hlen)
    obtain ⟨a, b, hw, hs, _, _⟩ := hl
    rw [hs0] at hs
    have hnil : tokChars g1 g2 g3 g4 = [] :=
      (List.append_eq_nil.mp (List.append_eq_nil.mp hs.symm).1).2
    rw [tokChars_eq_cons] at hnil
    exact absurd hnil (List.cons_ne_nil _ _)
  | succ fuel ih =>
    intro s g1 g2 g3 g4 hlen hl
    obtain ⟨a, b, hw, hs, hb, hnb⟩ := hl
    cases a with
    | nil =>
      simp only [List.nil_append] at hs
      have hm0 := matchCropAt_token g1 g2 g3 g4 b hw hb
      have hs2 : s = 'c' :: (tokTail g1 g2 g3 g4 ++ b) := by
        rw [hs, tokChars_eq_cons]
        rfl
      have hm : matchCropAt ('c' :: (tokTail g1 g2 g3 g4 ++ b))
          = some ((digitsToNat g1, digitsToNat g2, digitsToNat g3, digitsToNat g4), b) := by
        rw [← hs2, hs]
        exact hm0
      rw [hs2, cropMatchesF_succ_cons, hm]
      have hby : cropMatchesF fuel b = [] := by
        by_contra hne
        exact hnb (cropMatchesF_sound fuel b hne)
      simp [hby]
    | cons a0 a1 =>
      have hs2 : s = a0 :: (a1 ++ tokChars g1 g2 g3 g4 ++ b) := by simp [hs]
      have hlen2 : (a1 ++ tokChars g1 g2 g3 g4 ++ b).length ≤ fuel := by
        have hln : s.length = (a1 ++ tokChars g1 g2 g3 g4 ++ b).length + 1 := by
          rw [hs2, List.length_cons]
        omega
      cases hm : matchCropAt s with
      | none =>
        have hm2 : matchCropAt (a0 :: (a1 ++ tokChars g1 g2 g3 g4 ++ b)) = none := by
          rw [← hs2]; exact hm
        rw [hs2, cropMatchesF_succ_cons, hm2]
        exact ih _ g1 g2 g3 g4 hlen2 ⟨a1, b, hw, rfl, hb, hnb⟩

      | some tr =>
        obtain ⟨t, rest⟩ := tr
        obtain ⟨q1, q2, q3, q4, hwq, hsq, _⟩ := matchCropAt_some_decomp s t rest hm
        rcases le_or_lt (tokChars q1 q2 q3 q4).length (a0 :: a1).length with hle | hgt
        · have heq : tokChars q1 q2 q3 q4 ++ rest
              = (a0 :: a1) ++ (tokChars g1 g2 g3 g4 ++ b) := by
            rw [← hsq, hs]
            simp [List.append_assoc]
          obtain ⟨m, _, hrest⟩ := append_eq_append_split _ _ _ _ heq hle
          have hlast : LastTok rest g1 g2 g3 g4 :=
            ⟨m, b, hw, by rw [hrest]; simp [List.append_assoc], hb, hnb⟩
          have hlenq : rest.length ≤ fuel := by
            have h1 : s.length = (tokChars q1 q2 q3 q4).length + rest.length := by
              simp [hsq]
            have h2 : 1 ≤ (tokChars q1 q2 q3 q4).length := by
              rw [tokChars_eq_cons]; simp
            omega
          have hm2 : matchCropAt (a0 :: (a1 ++ tokChars g1 g2 g3 g4 ++ b))
              = some (t, rest) := by
            rw [← hs2]; exact hm
          rw [hs2, cropMatchesF_succ_cons, hm2]
          have hih := ih rest g1 g2 g3 g4 hlenq hlast
          have hne : cropMatchesF fuel rest ≠ [] := by
            intro h0
            rw [h0] at hih
            simp at hih
          show (t :: cropMatchesF fuel rest).getLast? = _
          rw [getLast?_cons_of_ne_nil _ _ hne]
          exact hih
        · exfalso
          have heq : (a0 :: a1) ++ (tokChars g1 g2 g3 g4 ++ b)
              = tokChars q1 q2 q3 q4 ++ rest := by
            rw [← hsq, hs]
            simp [List.append_assoc]
          obtain ⟨m, hqm, hwm⟩ :=
            append_eq_append_split _ _ _ _ heq (le_of_lt hgt)
          have hmne : m ≠ [] := by
            intro h0
            rw [h0, List.append_nil] at hqm
            rw [hqm] at hgt
            exact lt_irrefl _ hgt
          have hhead : m.head? = some 'c' := by
            cases m with
            | nil => exact absurd rfl hmne
            | cons m0 m1 =>
              rw [tokChars_eq_cons] at hwm
              simp only [List.cons_append, List.cons.injEq] at hwm
              simp only [List.head?_cons, Option.some.injEq]
              exact hwm.1.symm
          exact absurd hhead
            (tokChars_split_no_c q1 q2 q3 q4 hwq (a0 :: a1) m hqm (by simp))

/-- The parser returns null on token-free text. -/
theorem parseCrop_noTok (s : List Char) (h : ¬ HasTok s) : parseCrop s = none := by
  have hm : cropMatches s = [] := by
    by_contra hne
    exact h (cropMatchesF_sound s.length s hne)
  simp [parseCrop, hm]

/-- The parser returns exactly the values of the last token occurrence. -/
theorem parseCrop_lastTok (s g1 g2 g3 g4 : List Char) (h : LastTok s g1 g2 g3 g4) :
    parseCrop s = some ⟨digitsToNat g3, digitsToNat g4, digitsToNat g1, digitsToNat g2,
      cropTextOf (digitsToNat g1) (digitsToNat g2) (digitsToNat g3) (digitsToNat g4)⟩ := by
  have hlast : (cropMatches s).getLast?
      = some (digitsToNat g1, digitsToNat g2, digitsToNat g3, digitsToNat g4) :=
    cropMatchesF_lastTok s.length s g1 g2 g3 g4 (le_refl _) h
  simp [parseCrop, hlast]

theorem cropTextOf_eq_tok (w h x y : ℕ) :
    cropTextOf w h x y = tokChars (natDigits w) (natDigits h) (natDigits x) (natDigits y) := rfl

/-- The canonical text of a rectangle parses back to the same rectangle. -/
theorem parseCrop_cropTextOf (w h x y : ℕ) :
    parseCrop (cropTextOf w h x y) = some ⟨x, y, w, h, cropTextOf w h x y⟩ := by
  have hwf : WfGroups (natDigits w) (natDigits h) (natDigits x) (natDigits y) :=
    ⟨⟨natDigits_ne_nil w, natDigits_digits w⟩, ⟨natDigits_ne_nil h, natDigits_digits h⟩,
     ⟨natDigits_ne_nil x, natDigits_digits x⟩, ⟨natDigits_ne_nil y, natDigits_digits y⟩⟩
  have hnb : ¬ HasTok [] := by
    intro hcontra
    have := hasTok_length [] hcontra
    simp at this
  have hl : LastTok (cropTextOf w h x y) (natDigits w) (natDigits h) (natDigits x)
      (natDigits y) :=
    ⟨[], [], hwf, by simp [cropTextOf_eq_tok], rfl, hnb⟩
  rw [parseCrop_lastTok _ _ _ _ _ hl]
  simp [natDigits_toNat]

/-! ## Claim C3 -/

/-- C3 counterexample: the white-background scorer is not of the form
`removedArea + weight × max(topBar, bottomBar, leftBar, rightBar)` for any
single constant `weight`.  Over a 10×10 frame, the candidates `(x,y,w,h) =
(0,1,10,9)` and `(1,0,9,10)` both pass the 0.6 band, remove the same area 10
and have the same maximal bar 1, yet score 410 and 60 respectively. -/
theorem c3_counterexample :
    ¬ ∃ wgt : ℚ, ∀ (W H : ℕ) (c : CropRes),
      ¬ ((c.w : ℚ) < (W : ℚ) * 0.6 ∨ (c.h : ℚ) < (H : ℚ) * 0.6) →
      c.x + c.w ≤ W → c.y + c.h ≤ H →
      whiteScore (some c) W H = removedArea c W H + wgt * barMax c W H := by
  rintro ⟨wgt, hw⟩
  have h1 := hw 10 10 ⟨0, 1, 10, 9, []⟩ (by norm_num) (by norm_num) (by norm_num)
  have h2 := hw 10 10 ⟨1, 0, 9, 10, []⟩ (by norm_num) (by norm_num) (by norm_num)
  norm_num [whiteScore, removedArea, barMax, topBar, bottomBar, leftBar, rightBar] at h1 h2
  linarith

/-- C3 amended: for accepted candidates, the smart scorer returns
`removedArea + 200 × max(topBar, bottomBar, leftBar, rightBar)`, while the
white-background scorer returns
`removedArea + 400 × max(topBar, bottomBar) + 50 × max(leftBar, rightBar)` —
two weights, not one. -/
theorem c3_weight_amended (W H : ℕ) (c : CropRes) :
    (¬ ((c.w : ℚ) < (W : ℚ) * 0.5 ∨ (c.h : ℚ) < (H : ℚ) * 0.5) →
      scoreCrop (some c) W H = removedArea c W H + 200 * barMax c W H)
    ∧ (¬ ((c.w : ℚ) < (W : ℚ) * 0.6 ∨ (c.h : ℚ) < (H : ℚ) * 0.6) →
      whiteScore (some c) W H = removedArea c W H
        + 400 * max (topBar c) (bottomBar c H) + 50 * max (leftBar c) (rightBar c W)) := by
  constructor
  · intro hb
    rw [scoreCrop_accepted c W H hb]
    ring
  · intro hb
    rw [whiteScore_accepted c W H hb]
    ring

/-- Witness for the amended C3 at the concrete frame 10×10. -/
theorem c3_weight_amended_witness :
    scoreCrop (some ⟨0, 1, 10, 9, []⟩) 10 10
      = removedArea ⟨0, 1, 10, 9, []⟩ 10 10 + 200 * barMax ⟨0, 1, 10, 9, []⟩ 10 10
    ∧ whiteScore (some ⟨0, 1, 10, 9, []⟩) 10 10
      = removedArea ⟨0, 1, 10, 9, []⟩ 10 10
        + 400 * max (topBar ⟨0, 1, 10, 9, []⟩) (bottomBar ⟨0, 1, 10, 9, []⟩ 10)
        + 50 * max (leftBar ⟨0, 1, 10, 9, []⟩) (rightBar ⟨0, 1, 10, 9, []⟩ 10) :=
  ⟨(c3_weight_amended 10 10 ⟨0, 1, 10, 9, []⟩).1 (by norm_num),
   (c3_weight_amended 10 10 ⟨0, 1, 10, 9, []⟩).2 (by norm_num)⟩

/-! ## Claim C9 -/

/-- C9: over the same frame, for two candidates that pass the smart scorer's
rejection band and have the same maximal bar (which equal individual bars
imply), the one removing strictly more area scores strictly higher. -/
theorem c9_monotone_removed (W H : ℕ) (c1 c2 : CropRes)
    (h1 : ¬ ((c1.w : ℚ) < (W : ℚ) * 0.5 ∨ (c1.h : ℚ) < (H : ℚ) * 0.5))
    (h2 : ¬ ((c2.w : ℚ) < (W : ℚ) * 0.5 ∨ (c2.h : ℚ) < (H : ℚ) * 0.5))
    (hbar : barMax c1 W H = barMax c2 W H)
    (hrem : removedArea c1 W H < removedArea c2 W H) :
    scoreCrop (some c1) W H < scoreCrop (some c2) W H := by
  rw [scoreCrop_accepted c1 W H h1, scoreCrop_accepted c2 W H h2, hbar]
  linarith

/-- Witness for C9 at the concrete frame 100×100: both candidates have
maximal bar 10; the second removes 3600 against 2000 and scores higher. -/
theorem c9_monotone_removed_witness :
    barMax ⟨0, 10, 100, 80, []⟩ 100 100 = barMax ⟨10, 10, 80, 80, []⟩ 100 100
    ∧ removedArea ⟨0, 10, 100, 80, []⟩ 100 100 < removedArea ⟨10, 10, 80, 80, []⟩ 100 100
    ∧ scoreCrop (some ⟨0, 10, 100, 80, []⟩) 100 100
        < scoreCrop (some ⟨10, 10, 80, 80, []⟩) 100 100 :=
  ⟨by norm_num [barMax, topBar, bottomBar, leftBar, rightBar],
   by norm_num [removedArea],
   c9_monotone_removed 100 100 ⟨0, 10, 100, 80, []⟩ ⟨10, 10, 80, 80, []⟩
     (by norm_num) (by norm_num)
     (by norm_num [barMax, topBar, bottomBar, leftBar, rightBar])
     (by norm_num [removedArea])⟩

/-! ## Claim C6 -/

/-- C6 counterexample: the simple white detector of part_000 returns the
first parsed candidate without any band check; with a first pipeline parsing
a 1×1 rectangle on a 100×100 frame, the run returns a rectangle that both
scorers reject. -/
theorem c6_counterexample :
    P0.detectWhiteCrop (fun i => if i = 0 then some ⟨0, 0, 1, 1, []⟩ else none)
      = some ⟨0, 0, 1, 1, []⟩
    ∧ scoreCrop (some ⟨0, 0, 1, 1, []⟩) 100 100 = -1
    ∧ whiteScore (some ⟨0, 0, 1, 1, []⟩) 100 100 = -1 := by
  refine ⟨rfl, ?_, ?_⟩
  · norm_num [scoreCrop]
  · norm_num [whiteScore]

/-- C6 amended: the smart detector never returns a candidate inside the
rejection band — a non-null result always satisfies `w ≥ 0.5·W` and
`h ≥ 0.5·H`; the part_000 white detector and the motion fallback perform no
such check. -/
theorem c6_band_amended (res : ℕ → List (Option CropRes)) (W H : ℕ) (c : CropRes)
    (h : detectCropSmart res W H = some c) :
    ¬ ((c.w : ℚ) < (W : ℚ) * 0.5 ∨ (c.h : ℚ) < (H : ℚ) * 0.5) := by
  have hinv : SmartInv W H ((none : Option CropRes), (-1 : ℚ)) := ⟨le_refl _, by simp⟩
  have hb := smartLoopT_best res W H smartLimits (none, -1) hinv c h
  intro hband
  rw [show scoreCrop (some c) W H = -1 from by simp [scoreCrop, hband]] at hb
  exact lt_irrefl _ hb

/-- Witness for the amended C6: a concrete smart run returning a candidate
that indeed passes the band. -/
theorem c6_band_amended_witness :
    detectCropSmart (fun _ => [some ⟨0, 10, 100, 80, []⟩, none, none]) 100 100
      = some ⟨0, 10, 100, 80, []⟩
    ∧ ¬ (((⟨0, 10, 100, 80, []⟩ : CropRes).w : ℚ) < (100 : ℚ) * 0.5
        ∨ ((⟨0, 10, 100, 80, []⟩ : CropRes).h : ℚ) < (100 : ℚ) * 0.5) := by
  have hdet : detectCropSmart (fun _ => [some ⟨0, 10, 100, 80, []⟩, none, none]) 100 100
      = some ⟨0, 10, 100, 80, []⟩ := by
    norm_num [detectCropSmart, detectCropSmartT, smartLoopT, smartLimits, tierFold,
      scoreCrop, topBar, bottomBar, leftBar, rightBar]
  exact ⟨hdet, c6_band_amended (fun _ => [some ⟨0, 10, 100, 80, []⟩, none, none]) 100 100
    ⟨0, 10, 100, 80, []⟩ hdet⟩

/-! ## Claim C4 -/

/-- C4 counterexample: in the white sweep the very first parameter
combination (threshold 238, blur 18, limit 6) yields a candidate with the
clearly positive score 5000 on a 100×100 frame, yet the sweep still issues
all 60 parameter combinations — there is no early exit. -/
theorem c4_counterexample :
    whiteCombos.head? = some ((some 238, 18, 6) : WhiteCombo)
    ∧ whiteScore
        (whiteProbe
          ⟨fun t b lim => if t = 238 ∧ b = 18 ∧ lim = 6 then some ⟨0, 10, 100, 90, []⟩ else none,
           fun _ _ => none⟩
          ((some 238, 18, 6) : WhiteCombo)) 100 100 = 5000
    ∧ (detectWhiteCropT
        ⟨fun t b lim => if t = 238 ∧ b = 18 ∧ lim = 6 then some ⟨0, 10, 100, 90, []⟩ else none,
         fun _ _ => none⟩ 100 100).2 = whiteCombos
    ∧ whiteCombos.length = 60 := by
  refine ⟨rfl, ?_, detectWhiteCropT_trace _ 100 100, by decide⟩
  norm_num [whiteProbe, whiteScore, topBar, bottomBar, leftBar, rightBar]

/-- C4 amended: the smart detector stops after the first tier containing a
positive-score candidate (and reaches a later tier only when no earlier
candidate met the acceptance band; with no positive score anywhere it probes
every tier), while the white sweep always issues every parameter
combination regardless of scores. -/
theorem c4_early_exit_amended :
    (∀ (res : ℕ → List (Option CropRes)) (W H : ℕ) (i : ℕ) (hi : i < smartLimits.length),
      (∀ l ∈ smartLimits.take i, ∀ c ∈ res l, scoreCrop c W H ≤ 0) →
      (∃ c ∈ res (smartLimits.get ⟨i, hi⟩), 0 < scoreCrop c W H) →
      (detectCropSmartT res W H).probed = smartLimits.take (i + 1))
    ∧ (∀ (res : ℕ → List (Option CropRes)) (W H : ℕ),
      (∀ l ∈ smartLimits, ∀ c ∈ res l, scoreCrop c W H ≤ 0) →
      (detectCropSmartT res W H).probed = smartLimits)
    ∧ (∀ (o : WhiteOracle) (W H : ℕ), (detectWhiteCropT o W H).2 = whiteCombos) :=
  ⟨fun res W H i hi hpre hpos =>
      smartLoopT_take res W H smartLimits (none, -1) i hi (by norm_num) hpre hpos,
   fun res W H hall =>
      smartLoopT_all res W H smartLimits (none, -1) (by norm_num) hall,
   fun o W H => detectWhiteCropT_trace o W H⟩

/-- Witness for the amended C4: with a positive-score candidate in the first
tier, only limit 30 is probed; the white sweep trace is always full. -/
theorem c4_early_exit_amended_witness :
    (∃ c ∈ [some (⟨0, 10, 100, 80, []⟩ : CropRes)], 0 < scoreCrop c 100 100)
    ∧ (detectCropSmartT (fun _ => [some ⟨0, 10, 100, 80, []⟩]) 100 100).probed = [30]
    ∧ (detectWhiteCropT ⟨fun _ _ _ => none, fun _ _ => none⟩ 100 100).2 = whiteCombos := by
  have hpos : ∃ c ∈ [some (⟨0, 10, 100, 80, []⟩ : CropRes)], 0 < scoreCrop c 100 100 :=
    ⟨some ⟨0, 10, 100, 80, []⟩, by simp,
      by norm_num [scoreCrop, topBar, bottomBar, leftBar, rightBar]⟩
  refine ⟨hpos, ?_, c4_early_exit_amended.2.2 ⟨fun _ _ _ => none, fun _ _ => none⟩ 100 100⟩
  have h := c4_early_exit_amended.1 (fun _ => [some ⟨0, 10, 100, 80, []⟩]) 100 100 0
    (by norm_num [smartLimits]) (by simp) hpos
  simpa [smartLimits] using h

/-! ## Claim C8 -/

/-- C8: if the micro-pass probes find no remaining border (every probe of
the refinement sweep yields no candidate), the refinement returns null and
the route passes the once-cropped intermediate through unchanged — part_002
copies `tmp1` to the output verbatim, and the final filter chain of
part_001 contains no crop filter. -/
theorem c8_micro_pass (V : Type) (encodeStep : V → CropRes → V) (tmp1 : V)
    (o : WhiteOracle) (W H : ℕ)
    (hth : ∀ t b lim, o.th t b lim = none) (hneg : ∀ b lim, o.neg b lim = none) :
    detectWhiteCrop o W H = none
    ∧ microFinal encodeStep tmp1 (detectWhiteCrop o W H) = tmp1
    ∧ vfFinalWhite (detectWhiteCrop o W H) = [evenScaleVF] := by
  have hall : ∀ combo ∈ whiteCombos, whiteProbe o combo = none := by
    intro combo _
    match combo with
    | (some t, b, lim) => exact hth t b lim
    | (none, b, lim) => exact hneg b lim
  have hn := detectWhiteCrop_all_none o W H hall
  rw [hn]
  exact ⟨rfl, rfl, rfl⟩

/-- Witness for C8 with the all-failing oracle and an abstract re-encode on
naturals. -/
theorem c8_micro_pass_witness :
    detectWhiteCrop ⟨fun _ _ _ => none, fun _ _ => none⟩ 100 100 = none
    ∧ microFinal (fun v (_ : CropRes) => v + 1) (0 : ℕ)
        (detectWhiteCrop ⟨fun _ _ _ => none, fun _ _ => none⟩ 100 100) = 0
    ∧ vfFinalWhite (detectWhiteCrop ⟨fun _ _ _ => none, fun _ _ => none⟩ 100 100)
        = [evenScaleVF] :=
  c8_micro_pass ℕ (fun v _ => v + 1) 0 ⟨fun _ _ _ => none, fun _ _ => none⟩ 100 100
    (fun _ _ _ => rfl) (fun _ _ => rfl)

/-! ## Claim C7 -/

/-- C7 counterexample: in part_004 a failing dark probe aborts the whole
smart detection with the probe's error, even though the bright probe's
stderr parses to a perfectly good candidate. -/
theorem c7_counterexample :
    P4.detectCropSmart (Except.error ("boom".data)) (Except.ok ("crop=100:100:0:0".data))
      = Except.error ("boom".data)
    ∧ detectOnce (Except.ok ("crop=100:100:0:0".data))
      = some ⟨0, 0, 100, 100, cropTextOf 100 100 0 0⟩ := by
  exact ⟨rfl, by decide⟩

/-- The part_001 smart detector driven by raw probe outcomes: each pipeline
result goes through the failure-catching `detectOnce`. -/
def detectCropSmartE (o : ℕ → Fin 3 → Except (List Char) (List Char)) (W H : ℕ) :
    Option CropRes :=
  detectCropSmart (fun lim => [detectOnce (o lim 0), detectOnce (o lim 1), detectOnce (o lim 2)])
    W H

/-- C7 amended: in part_001, a probe whose subprocess fails contributes
`null` for its combination and the search result is exactly the one of the
run where that probe simply produced no diagnostic text — the failure is
recovered locally and the sweep proceeds; in part_004 (see the
counterexample) the failure instead aborts the whole detection. -/
theorem c7_probe_failure_amended (o : ℕ → Fin 3 → Except (List Char) (List Char))
    (W H : ℕ) (lim : ℕ) (i : Fin 3) (e : List Char) (he : o lim i = Except.error e) :
    detectOnce (o lim i) = none
    ∧ detectCropSmartE o W H
      = detectCropSmartE (fun l j => if l = lim ∧ j = i then Except.ok [] else o l j) W H := by
  constructor
  · rw [he]
    rfl
  · have key : ∀ (l : ℕ) (j : Fin 3),
        detectOnce (o l j)
          = detectOnce (if l = lim ∧ j = i then Except.ok [] else o l j) := by
      intro l j
      by_cases h : l = lim ∧ j = i
      · rcases h with ⟨rfl, rfl⟩
        rw [if_pos ⟨rfl, rfl⟩, he]
        rfl
      · rw [if_neg h]
    have hres : (fun l => [detectOnce (o l 0), detectOnce (o l 1), detectOnce (o l 2)])
        = (fun l => [detectOnce ((fun l2 j => if l2 = lim ∧ j = i then Except.ok [] else o l2 j) l 0),
                     detectOnce ((fun l2 j => if l2 = lim ∧ j = i then Except.ok [] else o l2 j) l 1),
                     detectOnce ((fun l2 j => if l2 = lim ∧ j = i then Except.ok [] else o l2 j) l 2)]) := by
      funext l
      rw [key l 0, key l 1, key l 2]
    unfold detectCropSmartE
    rw [hres]

/-- Witness for the amended C7 with a concrete always-failing oracle. -/
theorem c7_probe_failure_amended_witness :
    detectOnce ((fun (_ : ℕ) (_ : Fin 3) => Except.error ("boom".data)) 30 0) = none
    ∧ detectCropSmartE (fun _ _ => Except.error ("boom".data)) 100 100
      = detectCropSmartE
          (fun l j => if l = 30 ∧ j = 0 then Except.ok []
            else (fun (_ : ℕ) (_ : Fin 3) => Except.error ("boom".data)) l j) 100 100 :=
  c7_probe_failure_amended (fun _ _ => Except.error ("boom".data)) 100 100 30 0
    ("boom".data) rfl

/-! ## Claim C5 -/

/-- A diagnostic text with two per-frame bbox emissions whose last frame
differs from the union bounding box. -/
def c5txt : List Char :=
  ("lavfi.bbox.x=0 lavfi.bbox.y=0 lavfi.bbox.w=9 lavfi.bbox.h=9 "
    ++ "lavfi.bbox.x=5 lavfi.bbox.y=5 lavfi.bbox.w=9 lavfi.bbox.h=9").data

/-- C5 counterexample: on two emissions `(0,0,9,9)` and `(5,5,9,9)` the
cited `parseBboxMeta` returns the LAST frame `(5,5,9,9)`, not the union
bounding box `(0,0,14,14)` that the motion detector computes. -/
theorem c5_counterexample :
    parseBboxMeta c5txt = some ⟨5, 5, 9, 9, cropTextOf 9 9 5 5⟩
    ∧ detectMotionCrop c5txt = some ⟨0, 0, 14, 14, cropTextOf 14 14 0 0⟩
    ∧ parseBboxMeta c5txt ≠ detectMotionCrop c5txt := by
  exact ⟨by decide, by decide, by decide⟩

/-- C5 amended: the accumulation inside `detectMotionCrop` (the parser the
motion strategy actually runs) computes exactly the union bounding box of
the specification, with its null conditions; `parseBboxMeta` instead
returns the last emission (see the counterexample).  The length hypotheses
express that the components are emitted once per analyzed frame. -/
theorem c5_union_bbox_amended (stderrTxt : List Char)
    (h1 : (scanNums bboxXKey stderrTxt).length = (scanNums bboxYKey stderrTxt).length)
    (h2 : (scanNums bboxYKey stderrTxt).length = (scanNums bboxWKey stderrTxt).length)
    (h3 : (scanNums bboxWKey stderrTxt).length = (scanNums bboxHKey stderrTxt).length) :
    (detectMotionCrop stderrTxt).map (fun c => (c.x, c.y, c.w, c.h))
      = unionBBoxSpec (scanNums bboxXKey stderrTxt) (scanNums bboxYKey stderrTxt)
          (scanNums bboxWKey stderrTxt) (scanNums bboxHKey stderrTxt) := by
  unfold detectMotionCrop motionAccum unionBBoxSpec
  dsimp only
  split_ifs <;> rfl

/-- Witness for the amended C5 on a concrete two-frame diagnostic text. -/
theorem c5_union_bbox_amended_witness :
    (scanNums bboxXKey c5txt).length = (scanNums bboxYKey c5txt).length
    ∧ (scanNums bboxYKey c5txt).length = (scanNums bboxWKey c5txt).length
    ∧ (scanNums bboxWKey c5txt).length = (scanNums bboxHKey c5txt).length
    ∧ (detectMotionCrop c5txt).map (fun c => (c.x, c.y, c.w, c.h))
      = unionBBoxSpec (scanNums bboxXKey c5txt) (scanNums bboxYKey c5txt)
          (scanNums bboxWKey c5txt) (scanNums bboxHKey c5txt) :=
  ⟨by decide, by decide, by decide,
   c5_union_bbox_amended c5txt (by decide) (by decide) (by decide)⟩

/-! ## Claim C2 -/

/-- C2: the rectangle parser is a total function that returns null on texts
containing no crop token, and on a text whose last token occurrence has
digit groups `g1 g2 g3 g4` (i.e. `crop=g1:g2:g3:g4`) it returns exactly
those values — width `g1`, height `g2`, x `g3`, y `g4` — however many
tokens precede it. -/
theorem c2_parse_last_token (s : List Char) :
    (¬ HasTok s → parseCrop s = none)
    ∧ (∀ g1 g2 g3 g4 : List Char, LastTok s g1 g2 g3 g4 →
      parseCrop s = some ⟨digitsToNat g3, digitsToNat g4, digitsToNat g1, digitsToNat g2,
        cropTextOf (digitsToNat g1) (digitsToNat g2) (digitsToNat g3) (digitsToNat g4)⟩) :=
  ⟨parseCrop_noTok s, fun g1 g2 g3 g4 h => parseCrop_lastTok s g1 g2 g3 g4 h⟩

/-- Witness for C2: a text with two tokens parses to the second one, and a
token-free text parses to null. -/
theorem c2_parse_last_token_witness :
    LastTok ("x crop=1:2:3:4 crop=5:6:7:8!".data) ("5".data) ("6".data) ("7".data) ("8".data)
    ∧ parseCrop ("x crop=1:2:3:4 crop=5:6:7:8!".data)
      = some ⟨digitsToNat ("7".data), digitsToNat ("8".data), digitsToNat ("5".data),
          digitsToNat ("6".data),
          cropTextOf (digitsToNat ("5".data)) (digitsToNat ("6".data))
            (digitsToNat ("7".data)) (digitsToNat ("8".data))⟩
    ∧ parseCrop ("hello".data) = none := by
  have hl : LastTok ("x crop=1:2:3:4 crop=5:6:7:8!".data)
      ("5".data) ("6".data) ("7".data) ("8".data) :=
    ⟨"x crop=1:2:3:4 ".data, "!".data, by decide, by decide, by decide,
     fun hcontra => absurd (hasTok_length _ hcontra) (by decide)⟩
  have hno : ¬ HasTok ("hello".data) :=
    fun hcontra => absurd (hasTok_length _ hcontra) (by decide)
  exact ⟨hl, (c2_parse_last_token _).2 _ _ _ _ hl, (c2_parse_last_token _).1 hno⟩

/-! ## Claim C10 -/

/-- C10: every non-null parser result carries a `text` field equal to
`crop=w:h:x:y` built from its own fields, and re-parsing that text yields
the identical rectangle — the filter string handed to the re-encode step
denotes exactly the parsed geometry. -/
theorem c10_roundtrip (s : List Char) (c : CropRes) (h : parseCrop s = some c) :
    c.text = cropTextOf c.w c.h c.x c.y ∧ parseCrop c.text = some c := by
  unfold parseCrop at h
  cases hl : (cropMatches s).getLast? with
  | none =>
    rw [hl] at h
    simp at h
  | some t =>
    obtain ⟨w, hh, x, y⟩ := t
    rw [hl] at h
    simp only [Option.some.injEq] at h
    subst h
    exact ⟨rfl, parseCrop_cropTextOf w hh x y⟩

/-- Witness for C10 on a concrete diagnostic text. -/
theorem c10_roundtrip_witness :
    parseCrop ("a crop=12:34:5:6".data) = some ⟨5, 6, 12, 34, cropTextOf 12 34 5 6⟩
    ∧ (⟨5, 6, 12, 34, cropTextOf 12 34 5 6⟩ : CropRes).text = cropTextOf 12 34 5 6
    ∧ parseCrop (cropTextOf 12 34 5 6) = some ⟨5, 6, 12, 34, cropTextOf 12 34 5 6⟩ := by
  have h : parseCrop ("a crop=12:34:5:6".data)
      = some ⟨5, 6, 12, 34, cropTextOf 12 34 5 6⟩ := by decide
  have hc := c10_roundtrip ("a crop=12:34:5:6".data) ⟨5, 6, 12, 34, cropTextOf 12 34 5 6⟩ h
  exact ⟨h, hc.1, hc.2⟩
